import Mathlib

/- Shallow embedding of the indexing and retrieval pipeline of the
   free-local-rag repository (src/indexer.py and src/chatbot.py).

   Modelling conventions:
   * Python strings are sequences of Unicode code points; they are embedded
     as `List Char`, so `s[a:b]` becomes `(l.drop a).take (b - a)`.
   * The unbounded `while` loop of `chunk_by_sections` is embedded with an
     explicit fuel parameter; running out of fuel yields `none`.  A fuel of
     `section_content.length` is proved sufficient under the documented
     precondition `chunk_overlap < chunk_size`.
   * Python float distances are embedded as exact rationals.
   * External collaborators (the sentence-transformers embedder, the FAISS
     index, the LLM completion endpoint) appear only through their outputs:
     the `(distance, id)` rows a FAISS search returns, and the
     success-or-exception outcome of the completion call. -/

/-- The whitespace characters removed by Python `str.strip()` (ASCII range:
space, tab, newline, carriage return, vertical tab, form feed). -/
def pyIsSpace (c : Char) : Bool :=
  c == ' ' || c == '\t' || c == '\n' || c == '\r' ||
    c == Char.ofNat 11 || c == Char.ofNat 12

/-- Python `str.strip()`: remove leading and trailing whitespace. -/
def pyStrip (l : List Char) : List Char :=
  ((l.dropWhile pyIsSpace).reverse.dropWhile pyIsSpace).reverse

/-- Locate the first occurrence of the pattern `pat` in a list, returning the
part before the occurrence and the part after it.  `none` when `pat` does not
occur.  (Helper for Python `str.split(sep)` and `str.replace(old, '')`;
`pat` is always a non-empty literal here.) -/
def breakOnSub (pat : List Char) : List Char → Option (List Char × List Char)
  | [] => none
  | c :: rest =>
    if pat.isPrefixOf (c :: rest) then some ([], (c :: rest).drop pat.length)
    else
      match breakOnSub pat rest with
      | some (pre, post) => some (c :: pre, post)
      | none => none

/-- Python `content.split(sep)` for a non-empty separator: the parts between
consecutive non-overlapping occurrences of `sep`, scanned left to right.
Fuel-based; each step removes at least one character, so a fuel of
`l.length + 1` never runs out. -/
def splitOnSub (pat : List Char) : Nat → List Char → List (List Char)
  | 0, l => [l]
  | fuel + 1, l =>
    match breakOnSub pat l with
    | none => [l]
    | some (pre, post) => pre :: splitOnSub pat fuel post

/-- Python `s.replace(pat, '')`: delete every non-overlapping occurrence of
`pat`, scanning left to right.  Fuel-based, same convention as above. -/
def replaceSubEmpty (pat : List Char) : Nat → List Char → List Char
  | 0, l => l
  | fuel + 1, l =>
    match breakOnSub pat l with
    | none => l
    | some (pre, post) => pre ++ replaceSubEmpty pat fuel post

/-- Python `s.split('\n', 1)`: the text before the first newline, and
(when a newline exists) the text after it. -/
def splitFirstLine : List Char → List Char × Option (List Char)
  | [] => ([], none)
  | c :: rest =>
    if c = '\n' then ([], some rest)
    else
      let p := splitFirstLine rest
      (c :: p.1, p.2)

/-- A chunk as produced by `LocalEmbeddingIndexer.chunk_by_sections`: the dict
`{'text': ..., 'source': ..., 'section': ...}`.  The Python key `section` is
rendered `sectionLabel` because `section` is reserved in Lean. -/
structure Chunk where
  text : List Char
  source : String
  sectionLabel : List Char
deriving DecidableEq

/-- The label `f"{section_name} (part {part_num})"` given to chunks of a
split section. -/
def partLabel (name : List Char) (partNum : Nat) : List Char :=
  name ++ (" (part " ++ toString partNum ++ ")").data

/-- The `while start < len(section_content)` loop of `chunk_by_sections`
(indexer.py lines 112-126): emit the window `section_content[start:start+chunk_size]`,
then advance `start` by `chunk_size - chunk_overlap`.  Fuel-based embedding of
the unbounded loop; `none` means the fuel ran out before the loop exited. -/
def splitSectionLoop (chunkSize chunkOverlap : Nat) (name s : List Char) :
    Nat → Nat → Nat → Option (List Chunk)
  | 0, start, _ =>
    if start < s.length then none else some []
  | fuel + 1, start, partNum =>
    if start < s.length then
      let chunkText := (s.drop start).take chunkSize
      match splitSectionLoop chunkSize chunkOverlap name s fuel
          (start + (chunkSize - chunkOverlap)) (partNum + 1) with
      | some rest =>
        some (⟨chunkText, "content.txt", partLabel name partNum⟩ :: rest)
      | none => none
    else some []

/-- Python `lines = section.strip().split('\n', 1); lines[0]`. -/
def sectionHeadLine (sec : List Char) : List Char :=
  (splitFirstLine (pyStrip sec)).1

/-- Python `section_name = lines[0].strip().replace('===', '').strip()`. -/
def sectionNameOf (sec : List Char) : List Char :=
  pyStrip (replaceSubEmpty "===".data ((pyStrip (sectionHeadLine sec)).length + 1)
    (pyStrip (sectionHeadLine sec)))

/-- Python `section_content = lines[1].strip() if len(lines) > 1 else ""`. -/
def sectionContentOf (sec : List Char) : List Char :=
  match (splitFirstLine (pyStrip sec)).2 with
  | some r => pyStrip r
  | none => []

/-- The body of the `for section in sections` loop of `chunk_by_sections`:
skip blank sections and sections with empty bodies, emit the body as a single
chunk when it fits in `chunk_size`, otherwise run the overlap-splitting loop.
The loop fuel `(sectionContentOf sec).length` is sufficient whenever
`chunkOverlap < chunkSize` (proved below). -/
def processSection (chunkSize chunkOverlap : Nat) (sec : List Char) : List Chunk :=
  if pyStrip sec = [] then []
  else if sectionContentOf sec = [] then []
  else if (sectionContentOf sec).length ≤ chunkSize then
    [⟨sectionContentOf sec, "content.txt", sectionNameOf sec⟩]
  else
    (splitSectionLoop chunkSize chunkOverlap (sectionNameOf sec) (sectionContentOf sec)
      (sectionContentOf sec).length 0 1).getD []

/-- The literal delimiter `'=== PAGINA:'` that `chunk_by_sections` splits on. -/
def sectionDelim : List Char := "=== PAGINA:".data

/-- `LocalEmbeddingIndexer.chunk_by_sections` (indexer.py lines 83-128):
split the content on the section delimiter and process each section in order,
collecting all emitted chunks. -/
def chunkBySections (chunkSize chunkOverlap : Nat) (content : List Char) : List Chunk :=
  ((splitOnSub sectionDelim (content.length + 1) content).map
    (processSection chunkSize chunkOverlap)).flatten

/-- The dict `LocalEmbeddingIndexer.build` returns on success (the statistics
relevant to the claims; `embedding_dimension` and `index_size` are values of
the external embedder and FAISS index). -/
inductive BuildOutcome
  | ok (totalChunks : Nat)
  | fatal (msg : List Char)
deriving DecidableEq

/-- `LocalEmbeddingIndexer.build` (indexer.py lines 195-244) after content
loading: chunk the content, then hand the chunk texts to the external
embedder, FAISS index and the save step — none of which is guarded by any
check in the source — and return the statistics dict.  The source has no
branch that could produce a failure between chunking and returning; the only
raises in `build` happen inside `load_content`, before the content exists. -/
def build (chunkSize chunkOverlap : Nat) (content : List Char) : BuildOutcome :=
  let chunks := chunkBySections chunkSize chunkOverlap content
  BuildOutcome.ok chunks.length

/-- The pseudo-similarity `similarity = 1 / (1 + distance)` computed by
`RAGChatbot.retrieve` (chatbot.py line 108); float arithmetic idealised as
exact rationals. -/
def similarity (distance : ℚ) : ℚ := 1 / (1 + distance)

/-- One retrieval result dict of `RAGChatbot.retrieve`.  The Python key
`section` is rendered `sectionLabel`. -/
structure RetrievalResult where
  text : List Char
  sectionLabel : List Char
  source : String
  score : ℚ
  distance : ℚ
  rank : Nat
deriving DecidableEq

/-- Placeholder chunk for an out-of-range FAISS id: Python would raise an
IndexError on `self.chunks[chunk_idx]`; FAISS only returns ids that are valid
positions or the sentinel -1, so the default is never consulted for real
search output. -/
def defaultChunk : Chunk := ⟨[], "", []⟩

/-- The body of the `for idx, (distance, chunk_idx) in enumerate(...)` loop of
`RAGChatbot.retrieve` (chatbot.py lines 102-117): skip the sentinel id -1,
otherwise look the chunk up and build the result dict with
`rank = idx + 1` taken from the enumeration index. -/
def retrieveEntry (chunks : List Chunk) (p : Nat × (ℚ × Int)) : Option RetrievalResult :=
  let idx := p.1
  let distance := p.2.1
  let chunkIdx := p.2.2
  if chunkIdx = -1 then none
  else
    let chunk := chunks.getD chunkIdx.toNat defaultChunk
    some
      { text := chunk.text
        sectionLabel := chunk.sectionLabel
        source := chunk.source
        score := similarity distance
        distance := distance
        rank := idx + 1 }

/-- `RAGChatbot.retrieve` (chatbot.py lines 81-119), parameterised by the
loaded chunk list and by the `(distance, id)` rows the external FAISS search
returned for the query (the zip of `distances[0]` and `indices[0]`). -/
def retrieve (chunks : List Chunk) (search : List (ℚ × Int)) : List RetrievalResult :=
  search.enum.filterMap (retrieveEntry chunks)

/-- The entry `f"[Section: {section}]\n{text}\n"` appended to `context_parts`
for one result (chatbot.py line 146). -/
def contextEntry (r : RetrievalResult) : List Char :=
  "[Section: ".data ++ r.sectionLabel ++ "]\n".data ++ r.text ++ "\n".data

/-- Python `sep.join(parts)`. -/
def joinSep (sep : List Char) : List (List Char) → List Char
  | [] => []
  | [x] => x
  | x :: y :: xs => x ++ sep ++ joinSep sep (y :: xs)

/-- One iteration of the `for result in results` loop of
`RAGChatbot.format_context` (chatbot.py lines 137-146): always append the
context entry; append the section label to `sources` only when it is not
already present. -/
def formatContextStep (acc : List (List Char) × List (List Char)) (r : RetrievalResult) :
    List (List Char) × List (List Char) :=
  (acc.1 ++ [contextEntry r],
    if r.sectionLabel ∈ acc.2 then acc.2 else acc.2 ++ [r.sectionLabel])

/-- `RAGChatbot.format_context` (chatbot.py lines 121-149). -/
def formatContext (results : List RetrievalResult) : List Char × List (List Char) :=
  if results = [] then ("No relevant content found.".data, [])
  else
    let acc := results.foldl formatContextStep ([], [])
    (joinSep "\n---\n".data acc.1, acc.2)

/-- Deduplication keeping the first occurrence of each element, in order of
first occurrence.  This is the spec's description of the `sources` list
("deduplicated ordered list of section labels, first-occurrence order
preserved, no sorting"), written independently of the code, to be compared
with the accumulator loop of `format_context`. -/
def dedupFirst : List (List Char) → List (List Char)
  | [] => []
  | a :: rest => a :: dedupFirst (rest.filter (fun x => decide (x ≠ a)))
termination_by l => l.length
decreasing_by
  simp only [List.length_cons]
  exact Nat.lt_succ_of_le (List.length_filter_le _ _)

/-- The dict `RAGChatbot.chat` returns. -/
structure ChatResult where
  answer : List Char
  sources : List (List Char)
  query : List Char
  context : Option (List Char)
  retrievedChunks : Option (List RetrievalResult)
  chatError : Option (List Char)
deriving DecidableEq

/-- `RAGChatbot.chat` (chatbot.py lines 151-212), parameterised by the
already-retrieved results and by the outcome of the external LLM completion
call: `Except.ok answer` when `chat.completions.create` returns, and
`Except.error e` when anything inside the `try` block raises — the
`except Exception` handler turns the exception into the error-answer dict
with empty sources instead of re-raising it. -/
def chat (retrieved : List RetrievalResult) (query : List Char) (showContext : Bool)
    (llmOutcome : Except (List Char) (List Char)) : ChatResult :=
  let fc := formatContext retrieved
  match llmOutcome with
  | Except.ok answer =>
    { answer := answer
      sources := fc.2
      query := query
      context := if showContext then some fc.1 else none
      retrievedChunks := if showContext then some retrieved else none
      chatError := none }
  | Except.error e =>
    { answer := "Error communicating with service: ".data ++ e
      sources := []
      query := query
      context := none
      retrievedChunks := none
      chatError := some e }

/- Helper lemmas about the splitting loop.  These traverse the fuel-based
recursion once and are shared by the claim theorems below. -/

/-- Every chunk the splitting loop emits carries the source label
"content.txt". -/
theorem splitSectionLoop_source (chunkSize chunkOverlap : Nat) (name s : List Char) :
    ∀ fuel start partNum l,
      splitSectionLoop chunkSize chunkOverlap name s fuel start partNum = some l →
      ∀ c ∈ l, c.source = "content.txt" := by
  intro fuel
  induction fuel with
  | zero =>
    intro start pn l hl c hc
    simp only [splitSectionLoop] at hl
    split at hl
    · exact absurd hl (by simp)
    · cases hl
      exact absurd hc (List.not_mem_nil c)
  | succ n ih =>
    intro start pn l hl c hc
    simp only [splitSectionLoop] at hl
    split at hl
    · cases hrec : splitSectionLoop chunkSize chunkOverlap name s n
          (start + (chunkSize - chunkOverlap)) (pn + 1) with
      | none =>
        rw [hrec] at hl
        exact absurd hl (by simp)
      | some rest =>
        rw [hrec] at hl
        simp only [Option.some.injEq] at hl
        subst hl
        rcases List.mem_cons.mp hc with h | h
        · subst h; rfl
        · exact ih _ _ _ hrec c h
    · cases hl
      exact absurd hc (List.not_mem_nil c)

/-- Every chunk the splitting loop emits has non-empty text of length at most
`chunkSize`. -/
theorem splitSectionLoop_text_bounds (chunkSize chunkOverlap : Nat) (name s : List Char)
    (hsize : 0 < chunkSize) :
    ∀ fuel start partNum l,
      splitSectionLoop chunkSize chunkOverlap name s fuel start partNum = some l →
      ∀ c ∈ l, 1 ≤ c.text.length ∧ c.text.length ≤ chunkSize := by
  intro fuel
  induction fuel with
  | zero =>
    intro start pn l hl c hc
    simp only [splitSectionLoop] at hl
    split at hl
    · exact absurd hl (by simp)
    · cases hl
      exact absurd hc (List.not_mem_nil c)
  | succ n ih =>
    intro start pn l hl c hc
    simp only [splitSectionLoop] at hl
    split at hl
    · rename_i hstart
      cases hrec : splitSectionLoop chunkSize chunkOverlap name s n
          (start + (chunkSize - chunkOverlap)) (pn + 1) with
      | none =>
        rw [hrec] at hl
        exact absurd hl (by simp)
      | some rest =>
        rw [hrec] at hl
        simp only [Option.some.injEq] at hl
        subst hl
        rcases List.mem_cons.mp hc with h | h
        · subst h
          simp only [List.length_take, List.length_drop]
          omega
        · exact ih _ _ _ hrec c h
    · cases hl
      exact absurd hc (List.not_mem_nil c)

/-- The splitting loop completes whenever the fuel is at least the number of
characters not yet consumed, provided the overlap is strictly smaller than
the chunk size (so that each iteration strictly advances the window start). -/
theorem splitSectionLoop_isSome (chunkSize chunkOverlap : Nat) (name s : List Char)
    (hov : chunkOverlap < chunkSize) :
    ∀ fuel start partNum, s.length - start ≤ fuel →
      (splitSectionLoop chunkSize chunkOverlap name s fuel start partNum).isSome := by
  intro fuel
  induction fuel with
  | zero =>
    intro start pn hle
    simp only [splitSectionLoop]
    have hns : ¬ start < s.length := by omega
    simp [hns]
  | succ n ih =>
    intro start pn hle
    simp only [splitSectionLoop]
    by_cases hs : start < s.length
    · simp only [hs, if_true]
      have hrec := ih (start + (chunkSize - chunkOverlap)) (pn + 1) (by omega)
      cases hcall : splitSectionLoop chunkSize chunkOverlap name s n
          (start + (chunkSize - chunkOverlap)) (pn + 1) with
      | some rest => simp [hcall]
      | none =>
        rw [hcall] at hrec
        exact absurd hrec (by simp)
    · simp [hs]

/-- Every chunk `processSection` emits carries the source label
"content.txt". -/
theorem processSection_source (chunkSize chunkOverlap : Nat) (sec : List Char) :
    ∀ c ∈ processSection chunkSize chunkOverlap sec, c.source = "content.txt" := by
  intro c hc
  unfold processSection at hc
  split at hc
  · exact absurd hc (List.not_mem_nil c)
  · split at hc
    · exact absurd hc (List.not_mem_nil c)
    · split at hc
      · rw [List.mem_singleton] at hc
        subst hc
        rfl
      · cases hcall : splitSectionLoop chunkSize chunkOverlap (sectionNameOf sec)
            (sectionContentOf sec) (sectionContentOf sec).length 0 1 with
        | none =>
          rw [hcall] at hc
          exact absurd hc (List.not_mem_nil c)
        | some l =>
          rw [hcall] at hc
          exact splitSectionLoop_source _ _ _ _ _ _ _ _ hcall c hc

/-- Every chunk `processSection` emits has non-empty text of length at most
`chunkSize`. -/
theorem processSection_text_bounds (chunkSize chunkOverlap : Nat) (sec : List Char)
    (hsize : 0 < chunkSize) :
    ∀ c ∈ processSection chunkSize chunkOverlap sec,
      1 ≤ c.text.length ∧ c.text.length ≤ chunkSize := by
  intro c hc
  unfold processSection at hc
  split at hc
  · exact absurd hc (List.not_mem_nil c)
  · split at hc
    · exact absurd hc (List.not_mem_nil c)
    · rename_i hne
      split at hc
      · rename_i hfit
        rw [List.mem_singleton] at hc
        subst hc
        constructor
        · have : sectionContentOf sec ≠ [] := hne
          exact List.length_pos.mpr this
        · exact hfit
      · cases hcall : splitSectionLoop chunkSize chunkOverlap (sectionNameOf sec)
            (sectionContentOf sec) (sectionContentOf sec).length 0 1 with
        | none =>
          rw [hcall] at hc
          exact absurd hc (List.not_mem_nil c)
        | some l =>
          rw [hcall] at hc
          exact splitSectionLoop_text_bounds _ _ _ _ hsize _ _ _ _ hcall c hc

/-- C10: for every content string, every chunk emitted by chunk_by_sections
has its source field equal to the literal string "content.txt", regardless of
which file, directory, or document the content actually came from. -/
theorem chunk_source_is_content_txt (chunkSize chunkOverlap : Nat) (content : List Char)
    (c : Chunk) (hc : c ∈ chunkBySections chunkSize chunkOverlap content) :
    c.source = "content.txt" := by
  unfold chunkBySections at hc
  rw [List.mem_flatten] at hc
  obtain ⟨l, hl, hcl⟩ := hc
  rw [List.mem_map] at hl
  obtain ⟨sec, _, rfl⟩ := hl
  exact processSection_source _ _ _ c hcl

theorem chunk_source_is_content_txt_witness :
    (⟨"ab".data, "content.txt", "T".data⟩ : Chunk) ∈ chunkBySections 5 0 "T\nab".data ∧
    (⟨"ab".data, "content.txt", "T".data⟩ : Chunk).source = "content.txt" :=
  ⟨by decide, chunk_source_is_content_txt 5 0 "T\nab".data _ (by decide)⟩

/-- C2: for every content string and every chunk_size > 0 and chunk_overlap
with 0 <= chunk_overlap < chunk_size, every chunk emitted by
chunk_by_sections has text of length at most chunk_size and at least 1. -/
theorem chunk_text_length_bounds (chunkSize chunkOverlap : Nat) (content : List Char)
    (c : Chunk) (hov : chunkOverlap < chunkSize)
    (hc : c ∈ chunkBySections chunkSize chunkOverlap content) :
    1 ≤ c.text.length ∧ c.text.length ≤ chunkSize := by
  unfold chunkBySections at hc
  rw [List.mem_flatten] at hc
  obtain ⟨l, hl, hcl⟩ := hc
  rw [List.mem_map] at hl
  obtain ⟨sec, _, rfl⟩ := hl
  exact processSection_text_bounds _ _ _ (by omega) c hcl

theorem chunk_text_length_bounds_witness :
    0 < 5 ∧ (⟨"ab".data, "content.txt", "T".data⟩ : Chunk) ∈ chunkBySections 5 0 "T\nab".data ∧
    (1 ≤ (⟨"ab".data, "content.txt", "T".data⟩ : Chunk).text.length ∧
      (⟨"ab".data, "content.txt", "T".data⟩ : Chunk).text.length ≤ 5) :=
  ⟨by decide, by decide,
    chunk_text_length_bounds 5 0 "T\nab".data _ (by decide) (by decide)⟩

/-- C3: for every section body, the splitting loop of chunk_by_sections
terminates under the precondition 0 ≤ chunk_overlap < chunk_size: the window
start strictly increases each iteration, so the fuel-based embedding of the
loop completes (returns `some`) with the fuel `len(section_content)` used by
`processSection`. -/
theorem chunking_loop_terminates (chunkSize chunkOverlap : Nat) (name s : List Char)
    (hov : chunkOverlap < chunkSize) :
    (splitSectionLoop chunkSize chunkOverlap name s s.length 0 1).isSome :=
  splitSectionLoop_isSome chunkSize chunkOverlap name s hov s.length 0 1 (by omega)

theorem chunking_loop_terminates_witness :
    1 < 2 ∧ (splitSectionLoop 2 1 "N".data "abc".data "abc".data.length 0 1).isSome :=
  ⟨by decide, chunking_loop_terminates 2 1 "N".data "abc".data (by decide)⟩

/-- Dropping the first `chunkOverlap` characters of every chunk the loop
emits from position `start` on and concatenating yields exactly the section
body from position `start + chunkOverlap` on. -/
theorem splitSectionLoop_flatten_drop (chunkSize chunkOverlap : Nat) (name s : List Char) :
    ∀ fuel start partNum l,
      splitSectionLoop chunkSize chunkOverlap name s fuel start partNum = some l →
      ((l.map Chunk.text).map (List.drop chunkOverlap)).flatten
        = s.drop (start + chunkOverlap) := by
  intro fuel
  induction fuel with
  | zero =>
    intro start pn l hl
    simp only [splitSectionLoop] at hl
    split at hl
    · exact absurd hl (by simp)
    · rename_i hns
      cases hl
      simp only [List.map_nil, List.flatten_nil]
      exact (List.drop_eq_nil_of_le (by omega)).symm
  | succ n ih =>
    intro start pn l hl
    simp only [splitSectionLoop] at hl
    split at hl
    · rename_i hstart
      cases hrec : splitSectionLoop chunkSize chunkOverlap name s n
          (start + (chunkSize - chunkOverlap)) (pn + 1) with
      | none =>
        rw [hrec] at hl
        exact absurd hl (by simp)
      | some rest =>
        rw [hrec] at hl
        simp only [Option.some.injEq] at hl
        subst hl
        have hrest := ih _ _ _ hrec
        simp only [List.map_cons, List.flatten_cons]
        rw [hrest, List.drop_take, List.drop_drop]
        have harith : start + (chunkSize - chunkOverlap) + chunkOverlap
            = start + chunkOverlap + (chunkSize - chunkOverlap) := by omega
        have h2 : List.drop (start + chunkOverlap + (chunkSize - chunkOverlap)) s
            = List.drop (chunkSize - chunkOverlap) (List.drop (start + chunkOverlap) s) :=
          (List.drop_drop _ _ _).symm
        rw [harith, h2, List.take_append_drop]
    · rename_i hns
      cases hl
      simp only [List.map_nil, List.flatten_nil]
      exact (List.drop_eq_nil_of_le (by omega)).symm

/-- C4: for every section body longer than chunk_size (with
0 ≤ chunk_overlap < chunk_size), concatenating the first chunk's text with
each subsequent chunk's text after dropping its first chunk_overlap
characters reconstructs the original section body exactly.  The loop call is
the exact one `processSection` makes for a long section. -/
theorem chunk_coverage (chunkSize chunkOverlap : Nat) (name s : List Char)
    (hov : chunkOverlap < chunkSize) (hlong : chunkSize < s.length) :
    ∃ t rest,
      ((splitSectionLoop chunkSize chunkOverlap name s s.length 0 1).getD []).map Chunk.text
        = t :: rest ∧
      t ++ ((rest.map (List.drop chunkOverlap)).flatten) = s := by
  obtain ⟨l, hl⟩ := Option.isSome_iff_exists.mp
    (splitSectionLoop_isSome chunkSize chunkOverlap name s hov s.length 0 1 (by omega))
  rw [hl, Option.getD_some]
  obtain ⟨m, hm⟩ : ∃ m, s.length = m + 1 := ⟨s.length - 1, by omega⟩
  rw [hm] at hl
  simp only [splitSectionLoop] at hl
  rw [if_pos (by omega : 0 < s.length)] at hl
  cases hrec : splitSectionLoop chunkSize chunkOverlap name s m
      (0 + (chunkSize - chunkOverlap)) (1 + 1) with
  | none =>
    rw [hrec] at hl
    exact absurd hl (by simp)
  | some rest =>
    rw [hrec] at hl
    simp only [Option.some.injEq] at hl
    subst hl
    refine ⟨(s.drop 0).take chunkSize, rest.map Chunk.text, by simp, ?_⟩
    have hrest := splitSectionLoop_flatten_drop chunkSize chunkOverlap name s _ _ _ _ hrec
    rw [hrest, List.drop_zero]
    have harith : 0 + (chunkSize - chunkOverlap) + chunkOverlap = chunkSize := by omega
    rw [harith, List.take_append_drop]

theorem chunk_coverage_witness :
    1 < 2 ∧ 2 < "abc".data.length ∧
    (∃ t rest,
      ((splitSectionLoop 2 1 "N".data "abc".data "abc".data.length 0 1).getD []).map Chunk.text
        = t :: rest ∧
      t ++ ((rest.map (List.drop 1)).flatten) = "abc".data) :=
  ⟨by decide, by decide, chunk_coverage 2 1 "N".data "abc".data (by decide) (by decide)⟩

/-- The chunk at position `n` of the loop output started at window offset
`start + n * (chunkSize - chunkOverlap)` of the section body. -/
theorem splitSectionLoop_getElem (chunkSize chunkOverlap : Nat) (name s : List Char) :
    ∀ fuel start partNum l,
      splitSectionLoop chunkSize chunkOverlap name s fuel start partNum = some l →
      ∀ n c, l[n]? = some c →
        c.text = (s.drop (start + n * (chunkSize - chunkOverlap))).take chunkSize := by
  intro fuel
  induction fuel with
  | zero =>
    intro start pn l hl n c hn
    simp only [splitSectionLoop] at hl
    split at hl
    · exact absurd hl (by simp)
    · cases hl
      simp at hn
  | succ m ih =>
    intro start pn l hl n c hn
    simp only [splitSectionLoop] at hl
    split at hl
    · cases hrec : splitSectionLoop chunkSize chunkOverlap name s m
          (start + (chunkSize - chunkOverlap)) (pn + 1) with
      | none =>
        rw [hrec] at hl
        exact absurd hl (by simp)
      | some rest =>
        rw [hrec] at hl
        simp only [Option.some.injEq] at hl
        subst hl
        cases n with
        | zero =>
          simp only [List.getElem?_cons_zero, Option.some.injEq] at hn
          subst hn
          simp
        | succ k =>
          simp only [List.getElem?_cons_succ] at hn
          have := ih _ _ _ hrec k c hn
          rw [this]
          have harith : start + (chunkSize - chunkOverlap) + k * (chunkSize - chunkOverlap)
              = start + (k + 1) * (chunkSize - chunkOverlap) := by ring
          rw [harith]
    · cases hl
      simp at hn

/-- C5 counterexample: with chunk_size = 3 and chunk_overlap = 2 the section
body "abcd" is split into chunks "abc", "bcd", "cd", "d"; for the consecutive
pair at positions 2 and 3 the last 2 characters of "cd" are "cd" while the
first 2 characters of "d" are "d", so the overlap equality of the claim fails
on these two consecutive chunks of one split section. -/
theorem chunk_overlap_mismatch_example :
    ((chunkBySections 3 2 "X\nabcd".data).map Chunk.text)[2]? = some "cd".data ∧
    ((chunkBySections 3 2 "X\nabcd".data).map Chunk.text)[3]? = some "d".data ∧
    ¬ ("cd".data.drop ("cd".data.length - 2) = "d".data.take 2) :=
  ⟨by decide, by decide, by decide⟩

/-- C5 amended: for every split section (0 ≤ chunk_overlap < chunk_size) and
every pair of consecutive emitted chunks n and n+1, *when chunk n's text has
full length chunk_size* (which holds for all but the truncated chunks at the
section's tail), the last chunk_overlap characters of chunk n's text equal
the first chunk_overlap characters of chunk n+1's text. -/
theorem chunk_overlap_eq_of_full_chunk (chunkSize chunkOverlap : Nat) (name s : List Char)
    (n : Nat) (c₁ c₂ : Chunk) (hov : chunkOverlap < chunkSize)
    (h1 : ((splitSectionLoop chunkSize chunkOverlap name s s.length 0 1).getD [])[n]?
      = some c₁)
    (h2 : ((splitSectionLoop chunkSize chunkOverlap name s s.length 0 1).getD [])[n + 1]?
      = some c₂)
    (hfull : c₁.text.length = chunkSize) :
    c₁.text.drop (c₁.text.length - chunkOverlap) = c₂.text.take chunkOverlap := by
  cases hcall : splitSectionLoop chunkSize chunkOverlap name s s.length 0 1 with
  | none =>
    rw [hcall] at h1
    simp at h1
  | some l =>
    rw [hcall] at h1 h2
    simp only [Option.getD_some] at h1 h2
    have ht1 := splitSectionLoop_getElem chunkSize chunkOverlap name s _ _ _ _ hcall n c₁ h1
    have ht2 := splitSectionLoop_getElem chunkSize chunkOverlap name s _ _ _ _ hcall (n + 1) c₂ h2
    rw [hfull, ht1, ht2]
    rw [List.drop_take, List.drop_drop]
    have e1 : chunkSize - (chunkSize - chunkOverlap) = chunkOverlap := by omega
    have e2 : 0 + n * (chunkSize - chunkOverlap) + (chunkSize - chunkOverlap)
        = 0 + (n + 1) * (chunkSize - chunkOverlap) := by ring
    rw [e1, e2, List.take_take]
    have e3 : min chunkOverlap chunkSize = chunkOverlap := by omega
    rw [e3]

theorem chunk_overlap_eq_of_full_chunk_witness :
    1 < 2 ∧
    ((splitSectionLoop 2 1 "N".data "abc".data "abc".data.length 0 1).getD [])[0]?
      = some (⟨"ab".data, "content.txt", "N (part 1)".data⟩ : Chunk) ∧
    ((splitSectionLoop 2 1 "N".data "abc".data "abc".data.length 0 1).getD [])[1]?
      = some (⟨"bc".data, "content.txt", "N (part 2)".data⟩ : Chunk) ∧
    (⟨"ab".data, "content.txt", "N (part 1)".data⟩ : Chunk).text.length = 2 ∧
    (⟨"ab".data, "content.txt", "N (part 1)".data⟩ : Chunk).text.drop
        ((⟨"ab".data, "content.txt", "N (part 1)".data⟩ : Chunk).text.length - 1)
      = (⟨"bc".data, "content.txt", "N (part 2)".data⟩ : Chunk).text.take 1 :=
  ⟨by decide, by decide, by decide, by decide,
    chunk_overlap_eq_of_full_chunk 2 1 "N".data "abc".data 0 _ _ (by decide)
      (by decide) (by decide) (by decide)⟩

/-- When every remaining search row carries the sentinel id -1, the retrieve
loop emits nothing. -/
theorem retrieve_enumFrom_all_sentinel (chunks : List Chunk) :
    ∀ (search : List (ℚ × Int)) (k : Nat), (∀ q ∈ search, q.2 = -1) →
      (search.enumFrom k).filterMap (retrieveEntry chunks) = [] := by
  intro search
  induction search with
  | nil => intro k _; rfl
  | cons p rest ih =>
    intro k h
    simp only [List.enumFrom_cons]
    have hnone : retrieveEntry chunks (k, p) = none := by
      simp [retrieveEntry, h p (List.mem_cons_self _ _)]
    rw [List.filterMap_cons_none hnone]
    exact ih _ fun q hq => h q (List.mem_cons_of_mem _ hq)

/-- Rank bookkeeping of the retrieve loop, generalised over the enumeration
base: when sentinel rows only ever follow sentinel rows (so the valid rows
form a prefix of the search output), the ranks are the consecutive positions
starting at base + 1. -/
theorem retrieve_enumFrom_rank (chunks : List Chunk) :
    ∀ (search : List (ℚ × Int)) (k : Nat),
      List.Pairwise (fun p q => p.2 = -1 → q.2 = -1) search →
      ((search.enumFrom k).filterMap (retrieveEntry chunks)).map RetrievalResult.rank
        = List.range' (k + 1) ((search.enumFrom k).filterMap (retrieveEntry chunks)).length := by
  intro search
  induction search with
  | nil => intro k _; rfl
  | cons p rest ih =>
    intro k h
    rw [List.pairwise_cons] at h
    obtain ⟨hp, hrest⟩ := h
    simp only [List.enumFrom_cons]
    by_cases hs : p.2 = -1
    · have hnone : retrieveEntry chunks (k, p) = none := by
        simp [retrieveEntry, hs]
      rw [List.filterMap_cons_none hnone,
        retrieve_enumFrom_all_sentinel chunks rest (k + 1) (fun q hq => hp q hq hs)]
      rfl
    · have hsome : retrieveEntry chunks (k, p) = some
          { text := (chunks.getD p.2.toNat defaultChunk).text
            sectionLabel := (chunks.getD p.2.toNat defaultChunk).sectionLabel
            source := (chunks.getD p.2.toNat defaultChunk).source
            score := similarity p.1
            distance := p.1
            rank := k + 1 } := by
        simp [retrieveEntry, hs]
      rw [List.filterMap_cons_some hsome]
      simp only [List.map_cons, List.length_cons, List.range'_succ]
      rw [ih (k + 1) hrest]

/-- C1 counterexample: for the search output [(0, -1), (0, 0)] — one sentinel
row interleaved before one valid id — retrieve returns exactly one result,
but its rank is 2 (its 1-based position in the raw, unfiltered search
sequence), not 1: the ranks of the returned, sentinel-filtered sequence are
not the gap-free sequence 1..len(results). -/
theorem rank_gap_on_interleaved_sentinel :
    (([((0 : ℚ), (-1 : Int)), ((0 : ℚ), (0 : Int))] : List (ℚ × Int))[0]?.map Prod.snd
      = some (-1)) ∧
    (([((0 : ℚ), (-1 : Int)), ((0 : ℚ), (0 : Int))] : List (ℚ × Int))[1]?.map Prod.snd
      = some 0) ∧
    (retrieve [⟨"a".data, "content.txt", "S".data⟩]
        [((0 : ℚ), (-1 : Int)), ((0 : ℚ), (0 : Int))]).length = 1 ∧
    (retrieve [⟨"a".data, "content.txt", "S".data⟩]
        [((0 : ℚ), (-1 : Int)), ((0 : ℚ), (0 : Int))]).map RetrievalResult.rank = [2] ∧
    ([2] : List Nat) ≠ List.range' 1 1 :=
  ⟨by decide, by decide, by decide, by decide, by decide⟩

/-- C1 amended: rank equals the 1-based position in the raw, unfiltered
search sequence; consequently, whenever every sentinel (-1) row comes after
every valid row — as FAISS produces them, padding only at the tail — the rank
fields of the results returned by retrieve are exactly 1..len(results) with
no gaps.  (With a sentinel interleaved before a valid id the ranks have gaps,
see the counterexample.) -/
theorem rank_contiguous_of_trailing_sentinels (chunks : List Chunk)
    (search : List (ℚ × Int))
    (hmono : List.Pairwise (fun p q => p.2 = -1 → q.2 = -1) search) :
    (retrieve chunks search).map RetrievalResult.rank
      = List.range' 1 (retrieve chunks search).length :=
  retrieve_enumFrom_rank chunks search 0 hmono

theorem rank_contiguous_of_trailing_sentinels_witness :
    List.Pairwise (fun (p q : ℚ × Int) => p.2 = -1 → q.2 = -1)
      [((0 : ℚ), (0 : Int)), ((0 : ℚ), (-1 : Int))] ∧
    (retrieve [⟨"a".data, "content.txt", "S".data⟩]
        [((0 : ℚ), (0 : Int)), ((0 : ℚ), (-1 : Int))]).map RetrievalResult.rank
      = List.range' 1 (retrieve [⟨"a".data, "content.txt", "S".data⟩]
        [((0 : ℚ), (0 : Int)), ((0 : ℚ), (-1 : Int))]).length :=
  ⟨by decide, rank_contiguous_of_trailing_sentinels _ _ (by decide)⟩

/-- C6: the score field retrieve stores is similarity(distance) with
similarity d = 1 / (1 + d); for every distance d ≥ 0 the score lies in
(0, 1], and for distances d1 < d2 (both ≥ 0) the score at d1 is strictly
greater than the score at d2. -/
theorem score_inverse_distance :
    (∀ (chunks : List Chunk) (search : List (ℚ × Int)) (r : RetrievalResult),
      r ∈ retrieve chunks search → r.score = similarity r.distance) ∧
    (∀ d : ℚ, 0 ≤ d → 0 < similarity d ∧ similarity d ≤ 1) ∧
    (∀ d1 d2 : ℚ, 0 ≤ d1 → d1 < d2 → similarity d2 < similarity d1) := by
  refine ⟨?_, ?_, ?_⟩
  · intro chunks search r hr
    unfold retrieve at hr
    rw [List.mem_filterMap] at hr
    obtain ⟨p, _, hE⟩ := hr
    simp only [retrieveEntry] at hE
    split at hE
    · exact absurd hE (by simp)
    · simp only [Option.some.injEq] at hE
      subst hE
      rfl
  · intro d hd
    have h1 : (0 : ℚ) < 1 + d := by linarith
    unfold similarity
    constructor
    · exact one_div_pos.mpr h1
    · rw [div_le_one h1]
      linarith
  · intro d1 d2 hd1 hlt
    have h1 : (0 : ℚ) < 1 + d1 := by linarith
    unfold similarity
    exact one_div_lt_one_div_of_lt h1 (by linarith)

theorem score_inverse_distance_witness :
    ({ text := "a".data, sectionLabel := "S".data, source := "content.txt",
       score := similarity 0, distance := 0, rank := 1 } : RetrievalResult)
      ∈ retrieve [⟨"a".data, "content.txt", "S".data⟩] [((0 : ℚ), (0 : Int))] ∧
    ({ text := "a".data, sectionLabel := "S".data, source := "content.txt",
       score := similarity 0, distance := 0, rank := 1 } : RetrievalResult).score
      = similarity 0 ∧
    (0 : ℚ) ≤ 0 ∧ (0 < similarity 0 ∧ similarity 0 ≤ 1) ∧
    ((0 : ℚ) < 1 ∧ similarity 1 < similarity 0) := by
  have hmem : (⟨"a".data, "S".data, "content.txt", similarity 0, 0, 1⟩ : RetrievalResult)
      ∈ retrieve [⟨"a".data, "content.txt", "S".data⟩] [((0 : ℚ), (0 : Int))] :=
    List.mem_singleton.mpr rfl
  exact ⟨hmem, score_inverse_distance.1 _ _ _ hmem, le_refl 0,
    score_inverse_distance.2.1 0 (le_refl 0), zero_lt_one,
    score_inverse_distance.2.2 0 1 (le_refl 0) zero_lt_one⟩

/-- C7 (documenting the divergence): content that yields zero chunks does not
make build fail.  The content "=== PAGINA: X" has a section header with an
empty body, so chunk_by_sections produces no chunks, yet build has no
emptiness check: it hands the empty chunk list to the embed/index/persist
steps and returns the success statistics dict with total_chunks = 0. -/
theorem build_ok_on_zero_chunks :
    chunkBySections 500 50 "=== PAGINA: X".data = [] ∧
    build 500 50 "=== PAGINA: X".data = BuildOutcome.ok 0 :=
  ⟨by decide, by decide⟩

/-- C9: when the LLM completion call raises (outcome `Except.error e`), chat
catches the exception and returns the error dict: a textual error answer and
an empty sources list.  `chat` is a total function of the outcome, so the
exception is never propagated to the caller. -/
theorem chat_error_textual_answer (retrieved : List RetrievalResult) (query : List Char)
    (showContext : Bool) (e : List Char) :
    (chat retrieved query showContext (Except.error e)).answer
      = "Error communicating with service: ".data ++ e ∧
    (chat retrieved query showContext (Except.error e)).sources = [] :=
  ⟨rfl, rfl⟩

/-- The `sources` component of the format_context fold depends only on the
section labels, folded with the conditional-append step of the loop. -/
theorem formatContext_foldl_snd (results : List RetrievalResult) :
    ∀ parts sources : List (List Char),
      (results.foldl formatContextStep (parts, sources)).2
        = (results.map RetrievalResult.sectionLabel).foldl
            (fun acc a => if a ∈ acc then acc else acc ++ [a]) sources := by
  induction results with
  | nil => intro parts sources; rfl
  | cons r rest ih =>
    intro parts sources
    simp only [List.foldl_cons, List.map_cons, formatContextStep]
    exact ih _ _

/-- The conditional-append fold computes first-occurrence deduplication of
the elements not already present in the accumulator. -/
theorem foldl_dedup_eq (l : List (List Char)) :
    ∀ acc : List (List Char),
      l.foldl (fun acc a => if a ∈ acc then acc else acc ++ [a]) acc
        = acc ++ dedupFirst (l.filter (fun x => decide (x ∉ acc))) := by
  induction l with
  | nil => intro acc; simp [dedupFirst]
  | cons a l ih =>
    intro acc
    simp only [List.foldl_cons, List.filter_cons]
    by_cases ha : a ∈ acc
    · rw [if_pos ha]
      have hdec : decide (a ∉ acc) = false := by simp [ha]
      rw [hdec]
      simp only [Bool.false_eq_true, if_false]
      exact ih acc
    · rw [if_neg ha]
      have hdec : decide (a ∉ acc) = true := by simp [ha]
      rw [hdec]
      simp only [if_true]
      rw [ih (acc ++ [a])]
      rw [List.append_assoc]
      congr 1
      have hfilter : l.filter (fun x => decide (x ∉ acc ++ [a]))
          = (l.filter (fun x => decide (x ∉ acc))).filter (fun x => decide (x ≠ a)) := by
        rw [List.filter_filter]
        apply List.filter_congr
        intro x _
        by_cases h1 : x ∈ acc <;> by_cases h2 : x = a <;> simp [h1, h2]
      rw [hfilter, List.singleton_append, dedupFirst]

/-- C8: format_context maps the empty result list to exactly
("No relevant content found.", []); for every result list, the sources it
returns are the results' section labels deduplicated in first-occurrence
order (dedupFirst is the independent rendering of the spec's description). -/
theorem formatContext_empty_and_sources :
    formatContext [] = ("No relevant content found.".data, []) ∧
    ∀ results : List RetrievalResult,
      (formatContext results).2 = dedupFirst (results.map RetrievalResult.sectionLabel) := by
  constructor
  · rfl
  · intro results
    unfold formatContext
    by_cases h : results = []
    · subst h
      simp [dedupFirst]
    · rw [if_neg h]
      dsimp only
      rw [formatContext_foldl_snd results [] []]
      rw [foldl_dedup_eq]
      rw [List.nil_append]
      congr 1
      apply List.filter_eq_self.mpr
      intro x _
      simp
